import Mathlib

/-!
Verification of the component-level evaluation contract and graph utilities
of the OpenMDAO core (src/openmdao/core/component.py and
src/openmdao/utils/graph_utils.py).

Modelling conventions:
* A numeric vector (the flat buffers named inputs, outputs, residuals) is
  modelled as a total function from variable names to integers; the numpy
  elementwise operations become pointwise operations. Floating point
  rounding is out of scope: arithmetic is exact.
* The user-supplied compute of an explicit component deterministically
  overwrites the outputs vector as a function of the inputs vector, so it
  is modelled as a function from the inputs vector to the new outputs
  vector.
-/

/-- A named flat numeric buffer: variable name to (exact) numeric content. -/
abbrev Vec : Type := String → Int

/-- The three vectors held by a component during nonlinear evaluation. -/
structure EState where
  inputs : Vec
  outputs : Vec
  residuals : Vec

/-- ExplicitComponent._apply_nonlinear:
residuals.set_vec(outputs); self.compute(inputs, outputs);
residuals -= outputs; outputs += residuals. -/
def explicit_apply_nonlinear (compute : Vec → Vec) (s : EState) : EState :=
  let residuals1 := s.outputs
  let outputs1 := compute s.inputs
  let residuals2 : Vec := fun n => residuals1 n - outputs1 n
  let outputs2 : Vec := fun n => outputs1 n + residuals2 n
  ⟨s.inputs, outputs2, residuals2⟩

/-- ExplicitComponent._solve_nonlinear:
residuals.set_const(0.0); self.compute(inputs, outputs). -/
def explicit_solve_nonlinear (compute : Vec → Vec) (s : EState) : EState :=
  ⟨s.inputs, compute s.inputs, fun _ => 0⟩

/-- C1: for every explicit component whose user-supplied compute
deterministically overwrites the outputs as a function of the inputs,
calling _solve_nonlinear and then _apply_nonlinear (inputs unchanged in
between) yields a residual of exactly zero for every output variable. -/
theorem solve_then_apply_residual_zero (compute : Vec → Vec) (s : EState)
    (n : String) :
    (explicit_apply_nonlinear compute
      (explicit_solve_nonlinear compute s)).residuals n = 0 := by
  simp [explicit_apply_nonlinear, explicit_solve_nonlinear]

/-- C8: for every explicit component whose user compute writes only
outputs, _apply_nonlinear leaves the outputs vector exactly equal to its
value on entry, and leaves the residuals vector equal to the entry-time
outputs minus compute(inputs); hence the residual at a variable is zero
exactly when the entry-time output already equals compute(inputs) there. -/
theorem apply_nonlinear_frame (compute : Vec → Vec) (s : EState) :
    ((explicit_apply_nonlinear compute s).outputs = s.outputs) ∧
    (∀ n, (explicit_apply_nonlinear compute s).residuals n
        = s.outputs n - compute s.inputs n) ∧
    (∀ n, (explicit_apply_nonlinear compute s).residuals n = 0 ↔
        s.outputs n = compute s.inputs n) := by
  refine ⟨funext fun n => ?_, fun n => ?_, fun n => ?_⟩
  · simp [explicit_apply_nonlinear]
  · simp [explicit_apply_nonlinear]
  · simp [explicit_apply_nonlinear, sub_eq_zero]

/-! ## Variable registry (Component._add_variable, add_input, add_output) -/

/-- Kind of a declared variable: the typ argument of _add_variable. -/
inductive VarTyp where
  | input
  | output
deriving DecidableEq

/-- Python values stored in variable metadata: numeric scalars (exact),
strings, None, integer lists/arrays (indices), shape tuples, and numpy
arrays (shape together with flat data). -/
inductive PVal where
  | num (x : Int)
  | str (s : String)
  | pnone
  | ints (xs : List Int)
  | shp (dims : List Nat)
  | arr (shape : List Nat) (data : List Int)
deriving DecidableEq

/-- A metadata dictionary: total map from key to value. Keys outside the
recognized set read as pnone (the code never reads such keys). -/
abbrev Meta : Type := String → PVal

/-- Keyword options passed to add_input/add_output, in order. -/
abbrev Kwargs : Type := List (String × PVal)

/-- Component.DEFAULTS. -/
def varDEFAULTS : Meta := fun k =>
  if k = "indices" then PVal.ints [0]
  else if k = "shape" then PVal.shp [1]
  else if k = "units" then PVal.str ""
  else if k = "value" then PVal.num 1
  else if k = "scale" then PVal.num 1
  else if k = "lower" then PVal.pnone
  else if k = "upper" then PVal.pnone
  else if k = "var_set" then PVal.num 0
  else PVal.pnone

/-- Dictionary single-key assignment: metadata[k] = v. -/
def metaSet (m : Meta) (k : String) (v : PVal) : Meta :=
  fun q => if q = k then v else m q

/-- Dictionary update: metadata.update(kwargs). -/
def metaUpdate (m : Meta) (kws : Kwargs) : Meta :=
  kws.foldl (fun mm kv => metaSet mm kv.1 kv.2) m

/-- Membership test on keyword keys: the expression (key in kwargs). -/
def kwargsHasKey (kws : Kwargs) (k : String) : Bool :=
  kws.any (fun kv => kv.1 == k)

/-- Conversion numpy.array(x) applied to an indices entry; on the integer
lists the repository stores there it is the identity. -/
def npArray (v : PVal) : PVal := v

/-- The metadata dictionary built by Component._add_variable: DEFAULTS
copied, updated with kwargs, value key overwritten with val, array shape
and default indices handled, and for inputs the indices entry coerced to
an array. -/
def buildMetadata (typ : VarTyp) (val : PVal) (kwargs : Kwargs) : Meta :=
  let m0 := metaUpdate varDEFAULTS kwargs
  let m1 := metaSet m0 "value" val
  let m2 := match val with
    | PVal.arr sh dat =>
        let ms := metaSet m1 "shape" (PVal.shp sh)
        if typ = VarTyp.input ∧ ¬ kwargsHasKey kwargs "indices" then
          metaSet ms "indices" (PVal.ints ((List.range dat.length).map Int.ofNat))
        else ms
    | _ => m1
  if typ = VarTyp.input then metaSet m2 "indices" (npArray (m2 "indices")) else m2

/-- The three parallel ordered collections kept per variable kind. -/
structure CompData where
  allprocsNames : VarTyp → List String
  myprocNames : VarTyp → List String
  myprocMetadata : VarTyp → List Meta

/-- A freshly constructed component with no declared variables. -/
def compEmpty : CompData := ⟨fun _ => [], fun _ => [], fun _ => []⟩

/-- Component._add_variable: builds the metadata and appends name and
metadata to the three parallel lists of the given kind. -/
def addVariable (c : CompData) (name : String) (typ : VarTyp) (val : PVal)
    (kwargs : Kwargs) : CompData :=
  ⟨fun t => if t = typ then c.allprocsNames t ++ [name] else c.allprocsNames t,
   fun t => if t = typ then c.myprocNames t ++ [name] else c.myprocNames t,
   fun t => if t = typ then c.myprocMetadata t ++ [buildMetadata typ val kwargs]
            else c.myprocMetadata t⟩

/-- Component.add_input. -/
def add_input (c : CompData) (name : String) (val : PVal) (kwargs : Kwargs) :
    CompData :=
  addVariable c name VarTyp.input val kwargs

/-- Component.add_output. -/
def add_output (c : CompData) (name : String) (val : PVal) (kwargs : Kwargs) :
    CompData :=
  addVariable c name VarTyp.output val kwargs

theorem metaSet_same (m : Meta) (k : String) (v : PVal) : metaSet m k v k = v := by
  simp [metaSet]

theorem metaSet_other (m : Meta) (k : String) (v : PVal) (q : String)
    (h : q ≠ k) : metaSet m k v q = m q := by
  simp [metaSet, h]

theorem buildMetadata_value_eq (typ : VarTyp) (val : PVal) (kwargs : Kwargs) :
    buildMetadata typ val kwargs "value" = val := by
  unfold buildMetadata
  cases typ <;> cases val <;>
    simp [metaSet] <;>
    split <;> simp [metaSet]

/-- C10: the metadata recorded by _add_variable always has its value entry
equal to the positional val argument; a value keyword option is silently
overwritten by val and never takes effect, and the built metadata is
appended to the metadata list of the declared kind. -/
theorem add_variable_value_always_val (c : CompData) (name : String)
    (typ : VarTyp) (val : PVal) (kwargs : Kwargs) (w : PVal) :
    buildMetadata typ val kwargs "value" = val ∧
    buildMetadata typ val (kwargs ++ [("value", w)]) "value" = val ∧
    (addVariable c name typ val kwargs).myprocMetadata typ
      = c.myprocMetadata typ ++ [buildMetadata typ val kwargs] :=
  ⟨buildMetadata_value_eq typ val kwargs,
   buildMetadata_value_eq typ val (kwargs ++ [("value", w)]),
   by simp [addVariable]⟩

/-- C5 counterexample: declaring the same name twice within one component
does not raise; _add_variable performs no duplicate check, so both
declarations are recorded. -/
theorem add_input_duplicate_recorded :
    (add_input (add_input compEmpty "x" (PVal.num 1) []) "x" (PVal.num 1)
      []).allprocsNames VarTyp.input = ["x", "x"] := by
  decide

/-- C5 (amended): declaring a name that is already declared in the same
component raises no error; the second declaration is appended alongside
the first in the name lists of that kind. -/
theorem add_variable_appends_duplicate (c : CompData) (name : String)
    (typ : VarTyp) (val : PVal) (kwargs : Kwargs)
    (h : name ∈ c.allprocsNames typ) :
    (addVariable c name typ val kwargs).allprocsNames typ
      = c.allprocsNames typ ++ [name] ∧
    (addVariable c name typ val kwargs).myprocNames typ
      = c.myprocNames typ ++ [name] := by
  constructor <;> simp [addVariable]

theorem add_variable_appends_duplicate_witness :
    ("x" ∈ (add_input compEmpty "x" (PVal.num 1) []).allprocsNames
        VarTyp.input) ∧
    (addVariable (add_input compEmpty "x" (PVal.num 1) []) "x" VarTyp.input
        (PVal.num 1) []).allprocsNames VarTyp.input
      = (add_input compEmpty "x" (PVal.num 1) []).allprocsNames VarTyp.input
        ++ ["x"] :=
  ⟨by decide,
   (add_variable_appends_duplicate (add_input compEmpty "x" (PVal.num 1) [])
     "x" VarTyp.input (PVal.num 1) [] (by decide)).1⟩

/-! ## Jacobian store and ExplicitComponent._linearize -/

/-- A sub-Jacobian block: dense array or sparse (values, rows, cols)
triplet. -/
inductive JacBlock where
  | dense (rows : List (List Int))
  | sparse (vals : List Int) (rows : List Nat) (cols : List Nat)
deriving DecidableEq

/-- Negation of a block (Jacobian._negate negates the stored values). -/
def negBlock : JacBlock → JacBlock
  | JacBlock.dense rows => JacBlock.dense (rows.map (fun r => r.map (fun x => -x)))
  | JacBlock.sparse vals rows cols => JacBlock.sparse (vals.map (fun x => -x)) rows cols

/-- The sparse identity written on the diagonal:
(numpy.ones(size), numpy.arange(size), numpy.arange(size)). -/
def identityBlock (size : Nat) : JacBlock :=
  JacBlock.sparse (List.replicate size 1) (List.range size) (List.range size)

/-- The Jacobian store: map from (output name, wrt name) to an optional
block; absence is an exact zero block. -/
abbrev Jac : Type := String × String → Option JacBlock

/-- jacobian[key] = b. -/
def jacSet (j : Jac) (key : String × String) (b : JacBlock) : Jac :=
  fun q => if q = key then some b else j q

/-- Jacobian._negate(key): negate the block stored at key. -/
def jacNegate (j : Jac) (key : String × String) : Jac :=
  fun q => if q = key then (j q).map negBlock else j q

/-- Membership test (key in jacobian). -/
def jacContains (j : Jac) (key : String × String) : Bool :=
  (j key).isSome

/-- ExplicitComponent._linearize: run the user compute_jacobian, then force
every diagonal (output, output) block to the sparse identity, then negate
every present (output, input) block. The sizes argument gives
len(outputs._views_flat[name]) per output. -/
def explicit_linearize (compute_jacobian : Jac → Jac) (outNames inNames : List String)
    (sizes : String → Nat) (j : Jac) : Jac :=
  let j1 := compute_jacobian j
  let j2 := outNames.foldl
    (fun jj op => jacSet jj (op, op) (identityBlock (sizes op))) j1
  let j3 := outNames.foldl
    (fun jj op => inNames.foldl
      (fun jj2 ip => if jacContains jj2 (op, ip) then jacNegate jj2 (op, ip) else jj2)
      jj) j2
  j3

theorem jacSet_same (j : Jac) (key : String × String) (b : JacBlock) :
    jacSet j key b key = some b := by
  simp [jacSet]

theorem jacSet_other (j : Jac) (key : String × String) (b : JacBlock)
    (q : String × String) (h : q ≠ key) : jacSet j key b q = j q := by
  simp [jacSet, h]

theorem diag_fold_lookup (sizes : String → Nat) (outs : List String) (j : Jac)
    (a b : String) :
    (outs.foldl (fun jj op => jacSet jj (op, op) (identityBlock (sizes op))) j)
      (a, b)
      = if a = b ∧ a ∈ outs then some (identityBlock (sizes a)) else j (a, b) := by
  induction outs generalizing j with
  | nil => simp
  | cons o rest ih =>
      rw [List.foldl_cons, ih]
      by_cases hab : a = b
      · subst hab
        by_cases hmem : a ∈ rest
        · simp [hmem]
        · by_cases hao : a = o
          · subst hao
            simp [hmem, jacSet_same]
          · have hkey : (a, a) ≠ (o, o) := by simp [hao]
            simp [hmem, hao, jacSet_other _ _ _ _ hkey]
      · have hkey : (a, b) ≠ (o, o) := by
          intro h
          rw [Prod.mk.injEq] at h
          exact hab (h.1.trans h.2.symm)
        simp [hab, jacSet_other _ _ _ _ hkey]

theorem neg_inner_fold_lookup (op : String) (ips : List String) (j : Jac)
    (a b : String) (hnd : ips.Nodup) :
    (ips.foldl
        (fun jj ip => if jacContains jj (op, ip) then jacNegate jj (op, ip) else jj)
        j) (a, b)
      = if a = op ∧ b ∈ ips then (j (a, b)).map negBlock else j (a, b) := by
  induction ips generalizing j with
  | nil => simp
  | cons ip rest ih =>
      rw [List.foldl_cons, ih _ hnd.of_cons]
      have hstep : ∀ q : String × String, q ≠ (op, ip) →
          (if jacContains j (op, ip) then jacNegate j (op, ip) else j) q = j q := by
        intro q hq
        by_cases hc : jacContains j (op, ip) <;> simp [hc, jacNegate, hq]
      by_cases ha : a = op
      · subst ha
        by_cases hb : b ∈ rest
        · have hbne : b ≠ ip := fun h => (List.nodup_cons.mp hnd).1 (h ▸ hb)
          rw [hstep (a, b) (by simp [hbne])]
          simp [hb]
        · by_cases hbi : b = ip
          · subst hbi
            have hnr : b ∉ rest := hb
            by_cases hc : jacContains j (a, b)
            · simp [hnr, hc, jacNegate]
            · have hnone : j (a, b) = none :=
                Option.not_isSome_iff_eq_none.mp (by simpa [jacContains] using hc)
              simp [hnr, hc, hnone]
          · rw [hstep (a, b) (by simp [hbi])]
            simp [hb, hbi]
      · rw [hstep (a, b) (by simp [ha])]
        simp [ha]

theorem neg_outer_fold_lookup (outs ips : List String) (j : Jac)
    (a b : String) (hno : outs.Nodup) (hni : ips.Nodup) :
    (outs.foldl
        (fun jj op => ips.foldl
          (fun jj2 ip => if jacContains jj2 (op, ip) then jacNegate jj2 (op, ip) else jj2)
          jj) j) (a, b)
      = if a ∈ outs ∧ b ∈ ips then (j (a, b)).map negBlock else j (a, b) := by
  induction outs generalizing j with
  | nil => simp
  | cons o rest ih =>
      rw [List.foldl_cons, ih _ hno.of_cons]
      by_cases ha : a ∈ rest
      · have hao : a ≠ o := fun h => (List.nodup_cons.mp hno).1 (h ▸ ha)
        rw [neg_inner_fold_lookup o ips j a b hni]
        simp [ha, hao]
      · by_cases hao : a = o
        · subst hao
          rw [neg_inner_fold_lookup a ips j a b hni]
          simp [ha]
        · rw [neg_inner_fold_lookup o ips j a b hni]
          simp [ha, hao]

/-- C2: after ExplicitComponent._linearize, for a component whose input and
output name lists are duplicate-free and disjoint (the declared-variable
namespace invariant), every diagonal (output, output) block equals the
sparse identity of the output size regardless of what compute_jacobian
wrote, and every (output, input) block that compute_jacobian left present
is stored negated. -/
theorem linearize_diag_identity_offdiag_negated
    (compute_jacobian : Jac → Jac) (outNames inNames : List String)
    (sizes : String → Nat) (j : Jac)
    (hdisj : ∀ x ∈ outNames, x ∉ inNames)
    (hno : outNames.Nodup) (hni : inNames.Nodup)
    (op : String) (hop : op ∈ outNames) :
    explicit_linearize compute_jacobian outNames inNames sizes j (op, op)
      = some (identityBlock (sizes op)) ∧
    ∀ ip ∈ inNames, ∀ B,
      compute_jacobian j (op, ip) = some B →
      explicit_linearize compute_jacobian outNames inNames sizes j (op, ip)
        = some (negBlock B) := by
  constructor
  · unfold explicit_linearize
    rw [neg_outer_fold_lookup outNames inNames _ op op hno hni]
    have hnotin : op ∉ inNames := hdisj op hop
    rw [if_neg (by intro h; exact hnotin h.2)]
    rw [diag_fold_lookup sizes outNames _ op op]
    simp [hop]
  · intro ip hip B hB
    unfold explicit_linearize
    rw [neg_outer_fold_lookup outNames inNames _ op ip hno hni]
    rw [if_pos ⟨hop, hip⟩]
    rw [diag_fold_lookup sizes outNames _ op ip]
    have hne : op ≠ ip := fun h => hdisj op hop (h ▸ hip)
    rw [if_neg (by intro h; exact hne h.1)]
    rw [hB]
    rfl

/-- A concrete user compute_jacobian writing a single (output, input)
block. -/
def cjDemo : Jac → Jac :=
  fun j => jacSet j ("y", "x") (JacBlock.dense [[2]])

theorem linearize_diag_identity_offdiag_negated_witness :
    explicit_linearize cjDemo ["y"] ["x"] (fun _ => 1) (fun _ => none) ("y", "y")
      = some (identityBlock 1) ∧
    explicit_linearize cjDemo ["y"] ["x"] (fun _ => 1) (fun _ => none) ("y", "x")
      = some (negBlock (JacBlock.dense [[2]])) := by
  have h := linearize_diag_identity_offdiag_negated cjDemo ["y"] ["x"]
    (fun _ => 1) (fun _ => none) (by decide) (by decide) (by decide) "y"
    (by decide)
  exact ⟨h.1, h.2 "x" (by decide) (JacBlock.dense [[2]]) (by simp [cjDemo, jacSet])⟩

/-! ## IndepVarComp.initialize_variables (iterable-of-tuples case) -/

/-- The apostrophe character, used by the Python repr of strings. -/
def pyQuoteChar : String := (Char.ofNat 39).toString

/-- Python repr of a string value: quoted with apostrophes. -/
def pyQuote (s : String) : String := pyQuoteChar ++ s ++ pyQuoteChar

/-- Python str/repr of a metadata-level value, as it appears inside the
repr of a tuple. Only the string case is exercised by the claims. -/
def pyReprVal : PVal → String
  | PVal.str s => pyQuote s
  | PVal.num x => toString x
  | PVal.pnone => "None"
  | PVal.ints xs => toString xs
  | PVal.shp ds => toString ds
  | PVal.arr _ d => toString d

/-- An element of a Python tuple passed to IndepVarComp: either a plain
value or a keyword dictionary. -/
inductive PyElem where
  | val (v : PVal)
  | kwdict (kw : List (String × PVal))

/-- Python repr of a tuple element. -/
def pyReprElem : PyElem → String
  | PyElem.val v => pyReprVal v
  | PyElem.kwdict kw =>
      (Char.ofNat 123).toString
        ++ String.intercalate ", "
            (kw.map (fun e => pyQuote e.1 ++ ": " ++ pyReprVal e.2))
        ++ (Char.ofNat 125).toString

/-- Python repr of a tuple: one-element tuples carry a trailing comma. -/
def pyReprTuple (es : List PyElem) : String :=
  "(" ++ String.intercalate ", " (es.map pyReprElem)
    ++ (if es.length = 1 then ",)" else ")")

/-- One entry of the name argument of IndepVarComp: a tuple, a bare
string, or some other non-tuple object (carrying its repr). -/
inductive PyArg where
  | tup (elems : List PyElem)
  | strArg (s : String)
  | other (r : String)

/-- The ValueError message raised for a malformed entry. -/
def badTupleMsg (r : String) : String :=
  "IndepVarComp init: arg " ++ r
    ++ " must be a tuple of the form (name, value) or (name, value, keyword_dict)."

/-- IndepVarComp.initialize_variables for the iterable case: each length-2
tuple (name, value) and length-3 tuple (name, value, kwargs) declares an
output; a tuple of any other nonzero length raises ValueError with the
repr of the offending tuple; a bare string entry raises ValueError with
the repr of the whole name argument (wholeRepr); any other non-tuple
raises ValueError with its own repr. Length-2/3 tuples whose parts are not
(string, value[, dict]) fail in unpacking or add_output and are outside
the claims, as is the empty tuple (falsy in the code's badtup test, which
then reads stale loop variables). -/
def indepInitVarsList (c : CompData) (args : List PyArg) (wholeRepr : String) :
    Except String CompData :=
  match args with
  | [] => Except.ok c
  | a :: rest =>
      match a with
      | PyArg.tup [PyElem.val (PVal.str n), PyElem.val v] =>
          indepInitVarsList (add_output c n v []) rest wholeRepr
      | PyArg.tup [PyElem.val (PVal.str n), PyElem.val v, PyElem.kwdict kw] =>
          indepInitVarsList (add_output c n v kw) rest wholeRepr
      | PyArg.tup es =>
          if es.length = 2 ∨ es.length = 3 then Except.error "TypeError"
          else if es.length = 0 then Except.error "UnboundLocalError"
          else Except.error (badTupleMsg (pyReprTuple es))
      | PyArg.strArg _ => Except.error (badTupleMsg wholeRepr)
      | PyArg.other r => Except.error (badTupleMsg r)

/-- The well-formed constructor argument of the C9 scenario:
name equal to the list holding (x, 1.0) and (y, 2.0, units m). -/
def argsGood : List PyArg :=
  [PyArg.tup [PyElem.val (PVal.str "x"), PyElem.val (PVal.num 1)],
   PyArg.tup [PyElem.val (PVal.str "y"), PyElem.val (PVal.num 2),
              PyElem.kwdict [("units", PVal.str "m")]]]

/-- The component state produced by the C9 scenario. -/
def cGood : CompData :=
  add_output (add_output compEmpty "x" (PVal.num 1) []) "y" (PVal.num 2)
    [("units", PVal.str "m")]

/-- The malformed constructor argument of the C9 scenario: the length-one
tuple holding only the string z. -/
def argsBad : List PyArg := [PyArg.tup [PyElem.val (PVal.str "z")]]

/-- The error message produced for argsBad. -/
def msgBad : String := badTupleMsg (pyReprTuple [PyElem.val (PVal.str "z")])

/-- C9: initializing an IndepVarComp built from the list holding (x, 1.0)
and (y, 2.0, units m) declares exactly the outputs x then y, with recorded
values 1 and 2, default units for x and units m for y; initializing one
built from a list holding the malformed one-element tuple (z,) raises a
configuration error (ValueError) whose message names z. -/
theorem indep_init_outputs_and_malformed_error :
    indepInitVarsList compEmpty argsGood "listrepr" = Except.ok cGood ∧
    cGood.allprocsNames VarTyp.output = ["x", "y"] ∧
    (cGood.myprocMetadata VarTyp.output).map (fun m => (m "value", m "units"))
      = [(PVal.num 1, PVal.str ""), (PVal.num 2, PVal.str "m")] ∧
    indepInitVarsList compEmpty argsBad "listrepr" = Except.error msgBad ∧
    List.IsInfix "z".data msgBad.data := by
  refine ⟨rfl, by decide, by decide, rfl, ?_⟩
  decide

/-! ## Linear solves (ExplicitComponent and ImplicitComponent
_solve_linear) -/

/-- Modelled from the spec: the Vector class is not under src/. Spec
section 4.2 gives its operation surface: set_vec (elementwise assignment
from another vector), in-place add, subtract and scale, and set_const
(fill). Python resolves a method call through the attribute name at run
time, and an undefined attribute raises AttributeError; the name-indexed
dispatch of the copy-assignment method is modelled here. -/
def vectorCopyMethod (m : String) : Option (Vec → Vec → Vec) :=
  if m = "set_vec" then some (fun _self other => other) else none

/-- Call the Vector copy method named m on receiver tgt with argument
src: Except models the possible AttributeError. -/
def callVectorCopy (m : String) (tgt src : Vec) : Except String Vec :=
  match vectorCopyMethod m with
  | some f => Except.ok (f tgt src)
  | none => Except.error ("AttributeError: Vector object has no attribute " ++ m)

/-- The named derivative vectors of a component: d_outputs and
d_residuals per vector name. -/
structure DVecs where
  dOutputs : String → Vec
  dResiduals : String → Vec

/-- Store a new d_outputs vector under the given name. -/
def setDOut (st : DVecs) (name : String) (v : Vec) : DVecs :=
  ⟨fun q => if q = name then v else st.dOutputs q, st.dResiduals⟩

/-- Store a new d_residuals vector under the given name. -/
def setDRes (st : DVecs) (name : String) (v : Vec) : DVecs :=
  ⟨st.dOutputs, fun q => if q = name then v else st.dResiduals q⟩

/-- ExplicitComponent._solve_linear: for each vector name, in fwd mode the
code runs d_outputs.setvec(d_residuals) and in rev mode
d_residuals.setvec(d_outputs) — through the method name setvec, written
without the underscore used by the Vector contract. -/
def explicit_solve_linear (vecNames : List String) (mode : String)
    (st : DVecs) : Except String DVecs :=
  match vecNames with
  | [] => Except.ok st
  | name :: rest =>
      if mode = "fwd" then
        match callVectorCopy "setvec" (st.dOutputs name) (st.dResiduals name) with
        | Except.ok v => explicit_solve_linear rest mode (setDOut st name v)
        | Except.error e => Except.error e
      else if mode = "rev" then
        match callVectorCopy "setvec" (st.dResiduals name) (st.dOutputs name) with
        | Except.ok v => explicit_solve_linear rest mode (setDRes st name v)
        | Except.error e => Except.error e
      else explicit_solve_linear rest mode st

/-- C6: ExplicitComponent._solve_linear on any nonempty vector-name list
raises AttributeError in both fwd and rev mode, because it invokes the
undefined Vector method setvec (the Vector contract defines set_vec);
it therefore never performs the claimed copy. -/
theorem explicit_solve_linear_attribute_error (st : DVecs) (rest : List String) :
    explicit_solve_linear ("a" :: rest) "fwd" st
      = Except.error "AttributeError: Vector object has no attribute setvec" ∧
    explicit_solve_linear ("a" :: rest) "rev" st
      = Except.error "AttributeError: Vector object has no attribute setvec" := by
  constructor <;> rfl

/-- ImplicitComponent._solve_linear: delegates to the attached linear
solver when present; otherwise folds the per-name solve_linear results
with the boolean and, starting from True, and returns the single
aggregate. The per-name result of the user solve_linear call on the named
d_outputs/d_residuals pair is abstracted as solveLinear name mode. -/
def implicit_solve_linear (lnSolver : Option (List String → String → Bool))
    (solveLinear : String → String → Bool) (vecNames : List String)
    (mode : String) : Bool :=
  match lnSolver with
  | some s => s vecNames mode
  | none => vecNames.foldl (fun success name => success && solveLinear name mode) true

/-- Per-name results where a fails and b succeeds. -/
def slvFT : String → String → Bool := fun n _ => n == "b"

/-- Per-name results where a succeeds and b fails. -/
def slvTF : String → String → Bool := fun n _ => n == "a"

/-- C7 counterexample: _solve_linear does not report a status per named
derivative vector: two runs whose per-name outcomes differ (b succeeds in
one and fails in the other) return the identical single boolean, so the
returned value carries no per-name information. -/
theorem implicit_solve_linear_not_per_name :
    implicit_solve_linear none slvFT ["a", "b"] "fwd"
      = implicit_solve_linear none slvTF ["a", "b"] "fwd" ∧
    slvFT "b" "fwd" ≠ slvTF "b" "fwd" := by
  constructor <;> decide

theorem foldl_and_eq_all (p : String → Bool) (names : List String) (b : Bool) :
    names.foldl (fun acc n => acc && p n) b = (b && names.all p) := by
  induction names generalizing b with
  | nil => simp
  | cons n rest ih => simp [List.foldl_cons, ih, Bool.and_assoc]

/-- C7 (amended): without an attached linear solver,
ImplicitComponent._solve_linear returns one aggregate boolean — the
conjunction of the per-name solve_linear results over all requested
vector names — rather than a per-name status, and raises nothing; with an
attached solver it returns that solver result unchanged.
ExplicitComponent._solve_linear returns no status at all. -/
theorem implicit_solve_linear_aggregate (slv : String → String → Bool)
    (names : List String) (mode : String)
    (s : List String → String → Bool) :
    implicit_solve_linear none slv names mode
      = names.all (fun n => slv n mode) ∧
    implicit_solve_linear (some s) slv names mode = s names mode := by
  constructor
  · simp [implicit_solve_linear, foldl_and_eq_all]
  · rfl

/-! ## Dependency grapher (openmdao/utils/graph_utils.py) -/

/-- A finite directed graph: a vertex list and an edge list, with
adjacency read off the edge list in insertion order as networkx does. -/
structure Dgraph where
  verts : List Nat
  edges : List (Nat × Nat)
deriving DecidableEq

/-- Successors of a vertex in insertion order: the iteration graph[src]. -/
def succs (g : Dgraph) (v : Nat) : List Nat :=
  (g.edges.filter (fun e => e.1 == v)).map Prod.snd

/-- The loop state of all_connected_edges: the work stack (top first, so
the Python stack.pop removing the last pushed element is the head here),
the visited set, and the edges yielded so far in order. -/
structure TravState where
  stack : List Nat
  visited : List Nat
  out : List (Nat × Nat)
deriving DecidableEq

/-- One iteration of the while loop of all_connected_edges: pop a source,
then for each target in adjacency order yield the edge and push the
target if it was not yet visited. The visited set starts empty, so the
start vertex itself is never marked visited up front. -/
def travStep (g : Dgraph) (st : TravState) : TravState :=
  match st.stack with
  | [] => st
  | src :: rest =>
      (succs g src).foldl
        (fun s tgt =>
          ⟨if tgt ∈ s.visited then s.stack else tgt :: s.stack,
           if tgt ∈ s.visited then s.visited else s.visited ++ [tgt],
           s.out ++ [(src, tgt)]⟩)
        ⟨rest, st.visited, st.out⟩

/-- Run all_connected_edges for a bounded number of loop iterations from
the initial state stack = [start], visited = empty. -/
def allConnectedEdgesRun (g : Dgraph) (start : Nat) (fuel : Nat) : TravState :=
  (travStep g)^[fuel] ⟨[start], [], []⟩

/-- The C4 graph: vertices A=0, B=1, C=2, D=3 and edges A to B, B to C,
C to A, A to D. -/
def gC4 : Dgraph := ⟨[0, 1, 2, 3], [(0, 1), (1, 2), (2, 0), (0, 3)]⟩

/-- C4 failing run: all_connected_edges on the graph with edges A to B,
B to C, C to A, A to D starting at A terminates (the stack empties and
the state is a fixed point of the loop), but because the start vertex is
never entered into the visited set, the cycle edge C to A pushes A a
second time and the edges (A,B) and (A,D) are each yielded twice instead
of exactly once. -/
theorem all_connected_edges_duplicates :
    (allConnectedEdgesRun gC4 0 6).stack = [] ∧
    travStep gC4 (allConnectedEdgesRun gC4 0 6) = allConnectedEdgesRun gC4 0 6 ∧
    (allConnectedEdgesRun gC4 0 6).out
      = [(0, 1), (0, 3), (1, 2), (2, 0), (0, 1), (0, 3)] ∧
    (allConnectedEdgesRun gC4 0 6).out.count (0, 1) = 2 := by
  refine ⟨by decide, by decide, by decide, by decide⟩

/-! ## Reachability core used to model strongly connected components -/

/-- One saturation step of forward reachability: add every edge target
whose source is already in the set. -/
def nbrsStep (g : Dgraph) (s : List Nat) : List Nat :=
  (s ++ (g.edges.filter (fun e => decide (e.1 ∈ s))).map Prod.snd).dedup

/-- Vertices reachable from u: the saturation step iterated past its
fixed point (one more iteration than there are edges). -/
def reachList (g : Dgraph) (u : Nat) : List Nat :=
  (nbrsStep g)^[g.edges.length + 1] [u]

/-- Boolean reachability test. -/
def reachB (g : Dgraph) (u v : Nat) : Bool := decide (v ∈ reachList g u)

/-- Path reachability along the edge list. -/
def Reaches (g : Dgraph) (u v : Nat) : Prop :=
  Relation.ReflTransGen (fun a b => (a, b) ∈ g.edges) u v

theorem mem_nbrsStep_iff (g : Dgraph) (s : List Nat) (z : Nat) :
    z ∈ nbrsStep g s ↔ z ∈ s ∨ ∃ e ∈ g.edges, e.1 ∈ s ∧ e.2 = z := by
  simp [nbrsStep, List.mem_dedup, List.mem_append, List.mem_map,
        List.mem_filter]

theorem subset_nbrsStep (g : Dgraph) (s : List Nat) : s ⊆ nbrsStep g s := by
  intro z hz
  exact (mem_nbrsStep_iff g s z).mpr (Or.inl hz)

theorem mem_nbrsStep_of_edge (g : Dgraph) (s : List Nat) (x y : Nat)
    (hx : x ∈ s) (he : (x, y) ∈ g.edges) : y ∈ nbrsStep g s :=
  (mem_nbrsStep_iff g s y).mpr (Or.inr ⟨(x, y), he, hx, rfl⟩)

theorem nbrsStep_mono (g : Dgraph) (s t : List Nat) (hst : s ⊆ t) :
    nbrsStep g s ⊆ nbrsStep g t := by
  intro z hz
  rcases (mem_nbrsStep_iff g s z).mp hz with h | ⟨e, he, h1, h2⟩
  · exact (mem_nbrsStep_iff g t z).mpr (Or.inl (hst h))
  · exact (mem_nbrsStep_iff g t z).mpr (Or.inr ⟨e, he, hst h1, h2⟩)

theorem nodup_nbrsStep (g : Dgraph) (s : List Nat) : (nbrsStep g s).Nodup :=
  List.nodup_dedup _

theorem subset_iterate_nbrsStep (g : Dgraph) (n : Nat) (s : List Nat) :
    s ⊆ (nbrsStep g)^[n] s := by
  induction n generalizing s with
  | zero => simp
  | succ n ih =>
      rw [Function.iterate_succ_apply]
      exact (subset_nbrsStep g s).trans (ih (nbrsStep g s))

theorem iterate_nbrsStep_nodup (g : Dgraph) (n : Nat) (u : Nat) (hn : 0 < n) :
    ((nbrsStep g)^[n] [u]).Nodup := by
  cases n with
  | zero => omega
  | succ n =>
      rw [Function.iterate_succ_apply']
      exact nodup_nbrsStep g _

theorem iterate_nbrsStep_mono_step (g : Dgraph) (u : Nat) (k : Nat) :
    (nbrsStep g)^[k] [u] ⊆ (nbrsStep g)^[k + 1] [u] := by
  rw [Function.iterate_succ_apply']
  exact subset_nbrsStep g _

theorem iterate_nbrsStep_mono (g : Dgraph) (u : Nat) (k m : Nat) (h : k ≤ m) :
    (nbrsStep g)^[k] [u] ⊆ (nbrsStep g)^[m] [u] := by
  induction m with
  | zero =>
      have : k = 0 := by omega
      subst this
      exact fun z hz => hz
  | succ m ih =>
      rcases Nat.lt_or_ge k (m + 1) with hk | hk
      · exact (ih (by omega)).trans (iterate_nbrsStep_mono_step g u m)
      · have : k = m + 1 := by omega
        subst this
        exact fun z hz => hz

theorem sound_iterate_nbrsStep (g : Dgraph) (u : Nat) (n : Nat) (s : List Nat)
    (hs : ∀ x ∈ s, Reaches g u x) :
    ∀ y ∈ (nbrsStep g)^[n] s, Reaches g u y := by
  induction n generalizing s with
  | zero => simpa using hs
  | succ n ih =>
      rw [Function.iterate_succ_apply]
      refine ih (nbrsStep g s) ?_
      intro x hx
      rcases (mem_nbrsStep_iff g s x).mp hx with h | ⟨e, he, h1, h2⟩
      · exact hs x h
      · exact Relation.ReflTransGen.tail (hs e.1 h1) (h2 ▸ he)

theorem mem_reachList_self (g : Dgraph) (u : Nat) : u ∈ reachList g u :=
  subset_iterate_nbrsStep g (g.edges.length + 1) [u] (List.mem_singleton.mpr rfl)

theorem reachList_sound (g : Dgraph) (u v : Nat) (h : v ∈ reachList g u) :
    Reaches g u v := by
  refine sound_iterate_nbrsStep g u (g.edges.length + 1) [u] ?_ v h
  intro x hx
  rw [List.mem_singleton] at hx
  subst hx
  exact Relation.ReflTransGen.refl

theorem iterate_nbrsStep_bound (g : Dgraph) (u : Nat) (k : Nat) :
    (nbrsStep g)^[k] [u] ⊆ u :: g.edges.map Prod.snd := by
  induction k with
  | zero =>
      intro z hz
      rw [Function.iterate_zero_apply] at hz
      rw [List.mem_singleton] at hz
      exact hz ▸ List.mem_cons_self u _
  | succ k ih =>
      rw [Function.iterate_succ_apply']
      intro z hz
      rcases (mem_nbrsStep_iff g _ z).mp hz with h | ⟨e, he, _, h2⟩
      · exact ih h
      · exact List.mem_cons_of_mem u (h2 ▸ List.mem_map_of_mem Prod.snd he)

theorem exists_saturated (g : Dgraph) (u : Nat) :
    ∃ k, k ≤ g.edges.length ∧
      nbrsStep g ((nbrsStep g)^[k] [u]) ⊆ (nbrsStep g)^[k] [u] := by
  by_contra hcon
  push_neg at hcon
  have grow : ∀ k, k ≤ g.edges.length + 1 →
      k + 1 ≤ ((nbrsStep g)^[k] [u]).length := by
    intro k
    induction k with
    | zero => intro _; simp
    | succ k ih =>
        intro hk
        have h1 : k + 1 ≤ ((nbrsStep g)^[k] [u]).length := ih (by omega)
        have hnot : ¬ nbrsStep g ((nbrsStep g)^[k] [u]) ⊆ (nbrsStep g)^[k] [u] :=
          hcon k (by omega)
        rw [List.subset_def] at hnot
        push_neg at hnot
        obtain ⟨y, hy1, hy2⟩ := hnot
        have hnody : (y :: (nbrsStep g)^[k] [u]).Nodup := by
          refine List.nodup_cons.mpr ⟨hy2, ?_⟩
          cases k with
          | zero => simp
          | succ k =>
              rw [Function.iterate_succ_apply']
              exact nodup_nbrsStep g _
        have hsub : (y :: (nbrsStep g)^[k] [u]) ⊆ (nbrsStep g)^[k + 1] [u] := by
          intro z hz
          rw [Function.iterate_succ_apply']
          rcases List.mem_cons.mp hz with h | h
          · exact h ▸ hy1
          · exact subset_nbrsStep g _ h
        have := (hnody.subperm hsub).length_le
        simp only [List.length_cons] at this
        omega
  have hbig : g.edges.length + 2 ≤ ((nbrsStep g)^[g.edges.length + 1] [u]).length :=
    grow (g.edges.length + 1) (by omega)
  have hnod : ((nbrsStep g)^[g.edges.length + 1] [u]).Nodup :=
    iterate_nbrsStep_nodup g _ u (by omega)
  have hsmall := (hnod.subperm (iterate_nbrsStep_bound g u _)).length_le
  simp only [List.length_cons, List.length_map] at hsmall
  omega

theorem reachList_closed (g : Dgraph) (u : Nat) :
    ∀ x ∈ reachList g u, ∀ y, (x, y) ∈ g.edges → y ∈ reachList g u := by
  obtain ⟨k, hk, hsat⟩ := exists_saturated g u
  have hdown : ∀ m, (nbrsStep g)^[k + m] [u] ⊆ (nbrsStep g)^[k] [u] := by
    intro m
    induction m with
    | zero => exact fun z hz => hz
    | succ m ih =>
        have : k + (m + 1) = (k + m) + 1 := by omega
        rw [this, Function.iterate_succ_apply']
        exact (nbrsStep_mono g _ _ ih).trans hsat
  have heq1 : reachList g u ⊆ (nbrsStep g)^[k] [u] := by
    have : k + (g.edges.length + 1 - k) = g.edges.length + 1 := by omega
    intro z hz
    refine hdown (g.edges.length + 1 - k) ?_
    rw [this]
    exact hz
  have heq2 : (nbrsStep g)^[k] [u] ⊆ reachList g u :=
    iterate_nbrsStep_mono g u k (g.edges.length + 1) (by omega)
  intro x hx y hedge
  refine heq2 (hsat ?_)
  exact mem_nbrsStep_of_edge g _ x y (heq1 hx) hedge

theorem reachList_complete (g : Dgraph) (u v : Nat) (h : Reaches g u v) :
    v ∈ reachList g u := by
  induction h with
  | refl => exact mem_reachList_self g u
  | tail _ hbc ih => exact reachList_closed g u _ ih _ hbc

theorem reachB_iff (g : Dgraph) (u v : Nat) :
    reachB g u v = true ↔ Reaches g u v := by
  constructor
  · intro h
    exact reachList_sound g u v (of_decide_eq_true h)
  · intro h
    exact decide_eq_true (reachList_complete g u v h)

theorem reachB_refl (g : Dgraph) (u : Nat) : reachB g u u = true :=
  (reachB_iff g u u).mpr Relation.ReflTransGen.refl

theorem reachB_trans (g : Dgraph) (u v w : Nat) (h1 : reachB g u v = true)
    (h2 : reachB g v w = true) : reachB g u w = true :=
  (reachB_iff g u w).mpr (((reachB_iff g u v).mp h1).trans ((reachB_iff g v w).mp h2))

theorem reachB_of_edge (g : Dgraph) (u v : Nat) (h : (u, v) ∈ g.edges) :
    reachB g u v = true :=
  (reachB_iff g u v).mpr (Relation.ReflTransGen.single h)

/-! ## Strongly connected components in topological order -/

/-- Insert into a list kept in ascending key order. -/
def insertByKey (k : Nat → Nat) (x : Nat) : List Nat → List Nat
  | [] => [x]
  | y :: ys => if k x ≤ k y then x :: y :: ys else y :: insertByKey k x ys

/-- Insertion sort by ascending key. -/
def sortByKey (k : Nat → Nat) : List Nat → List Nat
  | [] => []
  | x :: xs => insertByKey k x (sortByKey k xs)

theorem mem_insertByKey (k : Nat → Nat) (x : Nat) (l : List Nat) (z : Nat) :
    z ∈ insertByKey k x l ↔ z = x ∨ z ∈ l := by
  induction l with
  | nil => simp [insertByKey]
  | cons y ys ih =>
      simp only [insertByKey]
      split
      · simp [List.mem_cons]
      · simp only [List.mem_cons, ih]
        tauto

theorem perm_insertByKey (k : Nat → Nat) (x : Nat) (l : List Nat) :
    (insertByKey k x l).Perm (x :: l) := by
  induction l with
  | nil => simp [insertByKey]
  | cons y ys ih =>
      simp only [insertByKey]
      split
      · exact List.Perm.refl _
      · exact (List.Perm.cons y ih).trans (List.Perm.swap x y ys)

theorem perm_sortByKey (k : Nat → Nat) (l : List Nat) :
    (sortByKey k l).Perm l := by
  induction l with
  | nil => simp [sortByKey]
  | cons x xs ih =>
      simp only [sortByKey]
      exact (perm_insertByKey k x (sortByKey k xs)).trans (List.Perm.cons x ih)

theorem pairwise_insertByKey (k : Nat → Nat) (x : Nat) (l : List Nat)
    (hp : l.Pairwise (fun a b => k a ≤ k b)) :
    (insertByKey k x l).Pairwise (fun a b => k a ≤ k b) := by
  induction l with
  | nil => simp [insertByKey]
  | cons y ys ih =>
      rcases List.pairwise_cons.mp hp with ⟨hy, hys⟩
      simp only [insertByKey]
      split
      · rename_i hxy
        refine List.pairwise_cons.mpr ⟨?_, hp⟩
        intro z hz
        rcases List.mem_cons.mp hz with h | h
        · exact h ▸ hxy
        · exact le_trans hxy (hy z h)
      · rename_i hxy
        push_neg at hxy
        refine List.pairwise_cons.mpr ⟨?_, ih hys⟩
        intro z hz
        rcases (mem_insertByKey k x ys z).mp hz with h | h
        · exact h ▸ le_of_lt hxy
        · exact hy z h

theorem pairwise_sortByKey (k : Nat → Nat) (l : List Nat) :
    (sortByKey k l).Pairwise (fun a b => k a ≤ k b) := by
  induction l with
  | nil => simp [sortByKey]
  | cons x xs ih =>
      simp only [sortByKey]
      exact pairwise_insertByKey k x _ ih

theorem sorted_positions (k : Nat → Nat) (l : List Nat)
    (hp : l.Pairwise (fun a b => k a ≤ k b)) (a b : Nat)
    (ha : a ∈ l) (hb : b ∈ l) (hk : k a < k b) :
    ∃ i j : Fin l.length, i < j ∧ l.get i = a ∧ l.get j = b := by
  obtain ⟨i, hi⟩ := List.mem_iff_get.mp ha
  obtain ⟨j, hj⟩ := List.mem_iff_get.mp hb
  refine ⟨i, j, ?_, hi, hj⟩
  rcases lt_trichotomy i j with h | h | h
  · exact h
  · exfalso
    have hab : a = b := by rw [← hi, h, hj]
    exact lt_irrefl _ (hab ▸ hk)
  · exfalso
    have hba := List.pairwise_iff_get.mp hp j i h
    rw [hi, hj] at hba
    omega

theorem length_filter_le_mono (l : List Nat) (p q : Nat → Bool)
    (himp : ∀ x ∈ l, p x = true → q x = true) :
    (l.filter p).length ≤ (l.filter q).length := by
  induction l with
  | nil => simp
  | cons x xs ih =>
      have ih' := ih (fun z hz => himp z (List.mem_cons_of_mem x hz))
      rw [List.filter_cons, List.filter_cons]
      by_cases hp : p x = true
      · have hq := himp x (List.mem_cons_self x xs) hp
        simp only [hp, hq, if_true, List.length_cons]
        omega
      · simp only [hp, if_false, Bool.false_eq_true]
        by_cases hq : q x = true
        · simp only [hq, if_true, List.length_cons]
          omega
        · simp only [hq, Bool.false_eq_true, if_false]
          exact ih'

theorem length_filter_lt (l : List Nat) (p q : Nat → Bool)
    (himp : ∀ x ∈ l, p x = true → q x = true)
    (w : Nat) (hw : w ∈ l) (hqw : q w = true) (hpw : p w = false) :
    (l.filter p).length < (l.filter q).length := by
  induction l with
  | nil => cases hw
  | cons x xs ih =>
      have himp' : ∀ z ∈ xs, p z = true → q z = true :=
        fun z hz => himp z (List.mem_cons_of_mem x hz)
      rw [List.filter_cons, List.filter_cons]
      rcases List.mem_cons.mp hw with h | h
      · subst h
        simp only [hpw, hqw, if_true, Bool.false_eq_true, if_false,
                   List.length_cons]
        exact Nat.lt_succ_of_le (length_filter_le_mono xs p q himp')
      · have hlt := ih himp' h
        by_cases hp : p x = true
        · have hq := himp x (List.mem_cons_self x xs) hp
          simp only [hp, hq, if_true, List.length_cons]
          omega
        · simp only [hp, Bool.false_eq_true, if_false]
          by_cases hq : q x = true
          · simp only [hq, if_true, List.length_cons]
            omega
          · simp only [hq, Bool.false_eq_true, if_false]
            exact hlt

/-- The strongly connected component of v: every vertex mutually
reachable with v, in vertex-list order. -/
def sccOf (g : Dgraph) (v : Nat) : List Nat :=
  g.verts.dedup.filter (fun u => reachB g v u && reachB g u v)

/-- Canonical representative of the component of v: its first member in
vertex-list order. -/
def canonRep (g : Dgraph) (v : Nat) : Nat := (sccOf g v).headD v

/-- One representative per strongly connected component, in vertex-list
order. -/
def sccReps (g : Dgraph) : List Nat :=
  g.verts.dedup.filter (fun v => canonRep g v == v)

/-- Number of vertices reachable from v. Vertices of one component share
this count, an edge out of a component strictly decreases it, so it is a
topological height. -/
def reachCount (g : Dgraph) (v : Nat) : Nat :=
  (g.verts.dedup.filter (fun u => reachB g v u)).length

/-- Modelled from the spec: networkx strongly_connected_components is
external to this repository; per the comment in get_sccs_topo it returns
the strongly connected components in reverse topological order. It is
modelled as the component classes, one per canonical representative,
listed in ascending order of reachable-vertex count: a sink component
reaches the fewest vertices, so ascending count is reverse topological
order (consumers before producers). -/
def strongly_connected_components (g : Dgraph) : List (List Nat) :=
  (sortByKey (reachCount g) (sccReps g)).map (sccOf g)

/-- get_sccs_topo: list the strongly connected components and reverse,
turning the reverse topological order of Tarjan enumeration into
topological order. -/
def get_sccs_topo (g : Dgraph) : List (List Nat) :=
  (strongly_connected_components g).reverse

/-- Well-formedness of the graph value: duplicate-free vertex list and
edges between listed vertices. -/
abbrev WellFormed (g : Dgraph) : Prop :=
  g.verts.Nodup ∧ ∀ e ∈ g.edges, e.1 ∈ g.verts ∧ e.2 ∈ g.verts

/-- Acyclicity: no edge can be closed back into a cycle. -/
abbrev AcyclicB (g : Dgraph) : Prop := ∀ e ∈ g.edges, reachB g e.2 e.1 = false

theorem mutual_reach_eq (g : Dgraph) (hA : AcyclicB g) (u v : Nat)
    (h1 : reachB g u v = true) (h2 : reachB g v u = true) : u = v := by
  rcases ((reachB_iff g u v).mp h1).cases_head with h | ⟨w, hw, hwv⟩
  · exact h
  · exfalso
    have hwu : Reaches g w u := hwv.trans ((reachB_iff g v u).mp h2)
    have hfalse := hA (u, w) hw
    have htrue := (reachB_iff g w u).mpr hwu
    simp [htrue] at hfalse

theorem filter_beq_single_of_nodup (l : List Nat) (hl : l.Nodup) (v : Nat)
    (hv : v ∈ l) : l.filter (fun u => u == v) = [v] := by
  induction l with
  | nil => cases hv
  | cons x xs ih =>
      rcases List.nodup_cons.mp hl with ⟨hx, hxs⟩
      rw [List.filter_cons]
      rcases List.mem_cons.mp hv with h | h
      · subst h
        have hnil : xs.filter (fun u => u == v) = [] := by
          rw [List.filter_eq_nil_iff]
          intro a ha
          simp only [beq_iff_eq]
          intro hax
          exact hx (hax ▸ ha)
        simp [hnil]
      · have hxv : x ≠ v := fun hh => hx (hh ▸ h)
        simp [hxv, ih hxs h]

theorem sccOf_singleton (g : Dgraph) (hN : g.verts.Nodup) (hA : AcyclicB g)
    (v : Nat) (hv : v ∈ g.verts) : sccOf g v = [v] := by
  unfold sccOf
  rw [List.dedup_eq_self.mpr hN]
  have hcong : ∀ u ∈ g.verts, (reachB g v u && reachB g u v) = (u == v) := by
    intro u _
    by_cases huv : u = v
    · subst huv
      simp [reachB_refl]
    · cases h1 : reachB g v u <;> cases h2 : reachB g u v <;> simp [huv]
      exact huv (mutual_reach_eq g hA u v h2 h1)
  rw [List.filter_congr hcong]
  exact filter_beq_single_of_nodup g.verts hN v hv

theorem canonRep_self (g : Dgraph) (hN : g.verts.Nodup) (hA : AcyclicB g)
    (v : Nat) (hv : v ∈ g.verts) : canonRep g v = v := by
  unfold canonRep
  rw [sccOf_singleton g hN hA v hv]
  rfl

theorem sccReps_eq_verts (g : Dgraph) (hN : g.verts.Nodup) (hA : AcyclicB g) :
    sccReps g = g.verts := by
  unfold sccReps
  rw [List.dedup_eq_self.mpr hN]
  rw [List.filter_eq_self]
  intro v hv
  simp [canonRep_self g hN hA v hv]

theorem reachCount_lt_of_edge (g : Dgraph) (hW : WellFormed g)
    (hA : AcyclicB g) (u v : Nat) (he : (u, v) ∈ g.edges) :
    reachCount g v < reachCount g u := by
  unfold reachCount
  refine length_filter_lt _ _ _ ?_ u ?_ ?_ ?_
  · intro x _ hx
    exact reachB_trans g u v x (reachB_of_edge g u v he) hx
  · rw [List.mem_dedup]
    exact (hW.2 (u, v) he).1
  · exact reachB_refl g u
  · exact hA (u, v) he

theorem reverse_positions {α : Type} (l : List α) (a b : α)
    (i j : Fin l.length) (hij : (i : Nat) < (j : Nat))
    (hi : l.get i = a) (hj : l.get j = b) :
    ∃ p q : Fin l.reverse.length,
      p < q ∧ l.reverse.get p = b ∧ l.reverse.get q = a := by
  have hjl : (j : Nat) < l.length := j.isLt
  have hil : (i : Nat) < l.length := i.isLt
  have hlr : l.reverse.length = l.length := List.length_reverse l
  refine ⟨⟨l.length - 1 - (j : Nat), by omega⟩,
          ⟨l.length - 1 - (i : Nat), by omega⟩,
          Fin.mk_lt_mk.mpr (by omega), ?_, ?_⟩
  · rw [List.get_reverse l (j : Nat) (by omega) hjl]
    exact hj
  · rw [List.get_reverse l (i : Nat) (by omega) hil]
    exact hi

/-- The C3 example graph: P=0, A=1, B=2, C=3, edges P to A, A to B,
B to C, C to A. -/
def gC3 : Dgraph := ⟨[0, 1, 2, 3], [(0, 1), (1, 2), (2, 3), (3, 1)]⟩

/-- C3: get_sccs_topo returns the strongly connected components in
topological order: on every well-formed acyclic graph the result is a
permutation of the singletons of the vertices (each node is its own
component, each exactly once) and for every edge the singleton of its
source occupies a strictly earlier position than the singleton of its
target; and on the graph with edges P to A, A to B, B to C, C to A it
returns the component holding P followed by the component holding
A, B and C. -/
theorem get_sccs_topo_topological :
    (∀ g : Dgraph, WellFormed g → AcyclicB g →
      (get_sccs_topo g).Perm (g.verts.map (fun v => [v])) ∧
      ∀ e ∈ g.edges, ∃ p q : Fin (get_sccs_topo g).length,
        p < q ∧ (get_sccs_topo g).get p = [e.1]
          ∧ (get_sccs_topo g).get q = [e.2]) ∧
    get_sccs_topo gC3 = [[0], [1, 2, 3]] := by
  constructor
  · intro g hW hA
    have hreps := sccReps_eq_verts g hW.1 hA
    have hout : get_sccs_topo g
        = ((sortByKey (reachCount g) g.verts).map (sccOf g)).reverse := by
      unfold get_sccs_topo strongly_connected_components
      rw [hreps]
    constructor
    · rw [hout]
      have hmapeq : (sortByKey (reachCount g) g.verts).map (sccOf g)
          = (sortByKey (reachCount g) g.verts).map (fun v => [v]) := by
        apply List.map_congr_left
        intro a hamem
        exact sccOf_singleton g hW.1 hA a
          ((perm_sortByKey (reachCount g) g.verts).mem_iff.mp hamem)
      rw [hmapeq]
      exact (List.reverse_perm _).trans ((perm_sortByKey _ _).map _)
    · intro e he
      rw [hout]
      obtain ⟨u, v⟩ := e
      have hu : u ∈ g.verts := (hW.2 (u, v) he).1
      have hv : v ∈ g.verts := (hW.2 (u, v) he).2
      have hk : reachCount g v < reachCount g u :=
        reachCount_lt_of_edge g hW hA u v he
      have hperm := perm_sortByKey (reachCount g) g.verts
      obtain ⟨i, j, hij, hi, hj⟩ := sorted_positions (reachCount g)
        (sortByKey (reachCount g) g.verts) (pairwise_sortByKey _ _) v u
        (hperm.mem_iff.mpr hv) (hperm.mem_iff.mpr hu) hk
      have hiM : (i : Nat)
          < ((sortByKey (reachCount g) g.verts).map (sccOf g)).length := by
        rw [List.length_map]
        exact i.isLt
      have hjM : (j : Nat)
          < ((sortByKey (reachCount g) g.verts).map (sccOf g)).length := by
        rw [List.length_map]
        exact j.isLt
      have hgeti : ((sortByKey (reachCount g) g.verts).map (sccOf g)).get
          ⟨(i : Nat), hiM⟩ = [v] := by
        rw [List.get_eq_getElem, List.getElem_map, ← List.get_eq_getElem, hi]
        exact sccOf_singleton g hW.1 hA v hv
      have hgetj : ((sortByKey (reachCount g) g.verts).map (sccOf g)).get
          ⟨(j : Nat), hjM⟩ = [u] := by
        rw [List.get_eq_getElem, List.getElem_map, ← List.get_eq_getElem, hj]
        exact sccOf_singleton g hW.1 hA u hu
      obtain ⟨p, q, hpq, hp, hq⟩ := reverse_positions
        ((sortByKey (reachCount g) g.verts).map (sccOf g)) [v] [u]
        ⟨(i : Nat), hiM⟩ ⟨(j : Nat), hjM⟩ hij hgeti hgetj
      exact ⟨p, q, hpq, hp, hq⟩
  · decide

/-- A concrete acyclic well-formed graph used to instantiate the
universal part of the C3 theorem. -/
def gW2 : Dgraph := ⟨[5, 7], [(5, 7)]⟩

theorem get_sccs_topo_topological_witness :
    WellFormed gW2 ∧ AcyclicB gW2 ∧
    ((get_sccs_topo gW2).Perm (gW2.verts.map (fun v => [v])) ∧
     ∀ e ∈ gW2.edges, ∃ p q : Fin (get_sccs_topo gW2).length,
       p < q ∧ (get_sccs_topo gW2).get p = [e.1]
         ∧ (get_sccs_topo gW2).get q = [e.2]) :=
  ⟨by decide, by decide,
   get_sccs_topo_topological.1 gW2 (by decide) (by decide)⟩
